import Mathlib

/-!
# Verification of the HealthGuard agent control loop

This file embeds the core of `healthcareagent/agent.py` and
`healthcareagent/tools/base.py` in Lean 4 and proves/refutes the frozen
claims about it.

Modelling conventions:
* Python strings are modelled as `List Char`.  The Python string methods
  used by the source (`split`, `replace`, `strip`, `startswith`, `lower`,
  substring containment `in`) are given faithful list-level
  implementations below (`splitOnSub`, `replaceSub`, `trimL`,
  `startsWithL`, `lowerL`, `containsSub`).  `strip`/`lower` are modelled
  for the ASCII range, which covers every literal the source manipulates.
* `json.loads` is an external library call; it is modelled by an abstract
  decoder `dec : List Char → Option J` for an abstract type `J` of decoded
  values.  The only fact about Python's `json.loads` used in any proof is
  stated as an explicit hypothesis where needed (e.g. that decoding the
  empty string fails, as `json.loads("")` raises `JSONDecodeError`).
* The LLM provider is modelled as a function from the current message list
  to `Except Unit (List Char)`: `.error` models a raised provider
  exception, `.ok c` a returned completion.  The unbounded `while True`
  loop of `HealthGuardAgent.__call__` is interpreted with explicit fuel:
  `none` means the loop is still running after that many iterations.
-/

set_option autoImplicit false

namespace HealthGuard

/-- whitespace characters stripped by Python's `str.strip()` (ASCII range). -/
def isPySpace (c : Char) : Bool :=
  c = ' ' || c = '\t' || c = '\n' || c = '\r' || c = '\x0b' || c = '\x0c'

/-- model of Python `str.strip()`: drop whitespace from both ends. -/
def trimL (s : List Char) : List Char :=
  ((s.dropWhile isPySpace).reverse.dropWhile isPySpace).reverse

/-- model of Python `str.lower()` (ASCII range, via `Char.toLower`). -/
def lowerL (s : List Char) : List Char :=
  s.map Char.toLower

/-- if `s = sep ++ r`, return `some r`, else `none`. -/
def stripPre (sep s : List Char) : Option (List Char) :=
  match sep, s with
  | [], s => some s
  | _ :: _, [] => none
  | c :: cs, d :: ds => if c = d then stripPre cs ds else none

/-- model of Python `s.startswith(sep)`. -/
def startsWithL (sep s : List Char) : Bool :=
  (stripPre sep s).isSome

/-- split `s` at the first occurrence of the substring `sep`:
`some (p, q)` with `s = p ++ sep ++ q` and the occurrence leftmost,
or `none` when `sep` does not occur in `s`. -/
def breakOnSub (sep : List Char) : List Char → Option (List Char × List Char)
  | [] =>
    match stripPre sep [] with
    | some r => some ([], r)
    | none => none
  | c :: cs =>
    match stripPre sep (c :: cs) with
    | some r => some ([], r)
    | none =>
      match breakOnSub sep cs with
      | some (p, q) => some (c :: p, q)
      | none => none

/-- model of Python substring containment `sep in s`. -/
def containsSub (sep s : List Char) : Bool :=
  (breakOnSub sep s).isSome

/-- fuelled worker for `splitOnSub`; fuel bounds the number of separator
occurrences consumed, `s.length` is always enough. -/
def splitFuel (sep : List Char) : Nat → List Char → List (List Char)
  | 0, s => [s]
  | n + 1, s =>
    match breakOnSub sep s with
    | none => [s]
    | some (p, q) => p :: splitFuel sep n q

/-- model of Python `s.split(sep)` for a non-empty separator. -/
def splitOnSub (sep s : List Char) : List (List Char) :=
  if sep.isEmpty then [s] else splitFuel sep s.length s

/-- fuelled worker for `replaceSub`. -/
def replFuel (sep repl : List Char) : Nat → List Char → List Char
  | 0, s => s
  | n + 1, s =>
    match breakOnSub sep s with
    | none => s
    | some (p, q) => p ++ repl ++ replFuel sep repl n q

/-- model of Python `s.replace(sep, repl)` for a non-empty pattern:
replaces every (leftmost, non-overlapping) occurrence. -/
def replaceSub (sep repl s : List Char) : List Char :=
  if sep.isEmpty then s else replFuel sep repl s.length s

/-- model of Python `"\n".join(...)` / joining accumulated segments. -/
def joinNL : List (List Char) → List Char
  | [] => []
  | [x] => x
  | x :: y :: xs => x ++ '\n' :: joinNL (y :: xs)

/-- last element of a list of strings, `[]` for the empty list
(model of Python `[-1]` on the never-empty result of `split`). -/
def lastD : List (List Char) → List Char
  | [] => []
  | [x] => x
  | _ :: y :: xs => lastD (y :: xs)

/-! ## Data model (agent.py / tools/base.py) -/

/-- message roles of the OpenAI-style chat dicts `{"role": ..., "content": ...}`. -/
inductive Role where
  | sys
  | user
  | assistant
deriving DecidableEq

/-- one conversation message `{"role": r, "content": c}`. -/
structure Msg where
  role : Role
  content : List Char
deriving DecidableEq

/-- argument passed to `HealthTool.run`: either the raw accumulated text, or
the value produced by `json.loads` when it succeeds (`Union[str, Dict]`). -/
inductive ToolArg (J : Type) where
  | raw (s : List Char)
  | parsed (j : J)
deriving DecidableEq

/-- a healthcare tool (`HealthTool` of `tools/base.py`): `name`,
`description`, `arg` fields plus the abstract `run` method.  `run` returns
`.error msg` to model a raised exception with message `str(e) = msg`. -/
structure HealthTool (J : Type) where
  name : List Char
  description : List Char
  arg : List Char
  run : ToolArg J → Except (List Char) (List Char)

/-- `HealthTool.model_post_init`: normalizes the three text fields
(`name.lower().replace(' ', '_')`, `description.lower()`, `arg.lower()`). -/
def mkTool {J : Type} (t : HealthTool J) : HealthTool J :=
  { t with
    name := replaceSub [' '] ['_'] (lowerL t.name)
    description := lowerL t.description
    arg := lowerL t.arg }

/-- a Python `dict` preserving insertion order, as an association list with
unique keys maintained by `dictInsert`. -/
def Registry (J : Type) : Type := List (List Char × HealthTool J)

/-- Python dict insertion: an existing key keeps its position and gets the
new value; a new key is appended. -/
def dictInsert {J : Type} (d : Registry J) (kv : List Char × HealthTool J) :
    Registry J :=
  match d with
  | [] => [kv]
  | (k, v) :: rest =>
    if k = kv.1 then (k, kv.2) :: rest else (k, v) :: dictInsert rest kv

/-- Python dict lookup `d[k]` / `k in d` (first — and by construction only —
entry with key `k`). -/
def dictFind {J : Type} (d : Registry J) (k : List Char) :
    Option (HealthTool J) :=
  match d with
  | [] => none
  | (k0, v) :: rest => if k0 = k then some v else dictFind rest k

/-- `list(d.keys())`: keys in insertion order. -/
def dictKeys {J : Type} (d : Registry J) : List (List Char) :=
  d.map Prod.fst

/-- `HealthGuardAgent._format_tools`: `dict(zip(tool_names, tools))` where
`tool_names = [t.name for t in tools]`. -/
def formatTools {J : Type} (tools : List (HealthTool J)) : Registry J :=
  (tools.map fun t => (t.name, t)).foldl dictInsert []

/-- Python `repr` of a list of strings, as produced by
`f"... {list(self.tools.keys())}"`: `['a', 'b']`. -/
def pyStrListRepr (ks : List (List Char)) : List Char :=
  '[' :: joinSep ks ++ [']']
where
  /-- comma-separated `'k'` items. -/
  joinSep : List (List Char) → List Char
    | [] => []
    | [k] => '\x27' :: k ++ ['\x27']
    | k :: k1 :: rest => '\x27' :: k ++ '\x27' :: ',' :: ' ' :: joinSep (k1 :: rest)

/-! ## ActionParser (`HealthGuardAgent._parse_action_string`) -/

/-- the marker literals of the Thought/Action/Observation protocol. -/
def actMark : List Char := "Action:".data

/-- the `Action Input:` marker. -/
def inMark : List Char := "Action Input:".data

/-- the `Observation:` marker. -/
def obsMark : List Char := "Observation:".data

/-- the `Response:` marker. -/
def respMark : List Char := "Response:".data

/-- scanner state of the line loop in `_parse_action_string`:
`action` (last `Action:` value seen), `segs` (accumulated `action_input`
segments, in order), `isAI` (the `is_action_input` flag). -/
structure ScanSt where
  action : Option (List Char)
  segs : List (List Char)
  isAI : Bool
deriving DecidableEq

/-- one iteration of the `for line in lines` loop of
`_parse_action_string`, in source order: `Action:` line sets the action
(overwrite), `Action Input:` line starts accumulation and pushes its
(stripped, nonempty) payload, `Observation:` line stops accumulation, any
other non-blank line is pushed stripped while accumulation is on. -/
def scanStep (st : ScanSt) (line : List Char) : ScanSt :=
  if startsWithL actMark line then
    { st with action := some (trimL (replaceSub actMark [] line)) }
  else if startsWithL inMark line then
    let t := trimL (replaceSub inMark [] line)
    { st with isAI := true, segs := if t.isEmpty then st.segs else st.segs ++ [t] }
  else if startsWithL obsMark line then
    { st with isAI := false }
  else if st.isAI && !(trimL line).isEmpty then
    { st with segs := st.segs ++ [trimL line] }
  else st

/-- the scanner run over all lines from the initial state. -/
def scanLines (lines : List (List Char)) : ScanSt :=
  lines.foldl scanStep ⟨none, [], false⟩

/-- the accumulated `action_input` text of a completion:
`'\n'.join(action_input)` after the scan. -/
def accumInput (text : List Char) : List Char :=
  joinNL (scanLines (splitOnSub ['\n'] text)).segs

/-- `json.loads` fallback of `_parse_action_string`: decoded value when the
decoder succeeds, the raw text otherwise. -/
def jsonOrRaw {J : Type} (dec : List Char → Option J) (s : List Char) :
    ToolArg J :=
  match dec s with
  | some j => ToolArg.parsed j
  | none => ToolArg.raw s

/-- `HealthGuardAgent._parse_action_string`: split into lines, run the
scanner, join the accumulated input and attempt a structured decode. -/
def parseActionString {J : Type} (dec : List Char → Option J)
    (text : List Char) : Option (List Char) × ToolArg J :=
  ((scanLines (splitOnSub ['\n'] text)).action, jsonOrRaw dec (accumInput text))

/-! ## ToolDispatcher (`HealthGuardAgent._tool_call`) -/

/-- the not-found Observation:
`f"Observation: Tool '{action}' not found. Available tools: {list(self.tools.keys())}"`,
where a `None` action prints as `None` and an empty string as `''`. -/
def notFoundObs {J : Type} (reg : Registry J) (act : Option (List Char)) :
    List Char :=
  "Observation: Tool '".data ++
    (match act with | none => "None".data | some a => a) ++
    "' not found. Available tools: ".data ++ pyStrListRepr (dictKeys reg)

/-- the Observation built from a tool invocation: success prepends
`Observation: `, a raised tool exception is caught and rendered as the
fixed error Observation. -/
def runObs {J : Type} (t : HealthTool J) (inp : ToolArg J) : List Char :=
  match t.run inp with
  | Except.ok o => "Observation: ".data ++ o
  | Except.error e =>
    "Observation: There was an error executing the tool.\nError: ".data ++ e

/-- `HealthGuardAgent._tool_call`: parse the completion, look the action up
by `action.strip().lower()` (a `None` or empty action is falsy and skips
the lookup), run the tool or return the not-found Observation. -/
def toolCall {J : Type} (reg : Registry J) (dec : List Char → Option J)
    (response : List Char) : List Char :=
  match parseActionString dec response with
  | (act, inp) =>
    match act with
    | none => notFoundObs reg none
    | some a =>
      if a.isEmpty then notFoundObs reg (some a)
      else
        match dictFind reg (lowerL (trimL a)) with
        | some t => runObs t inp
        | none => notFoundObs reg (some a)

/-! ## AgentLoop (`HealthGuardAgent.__call__` and friends) -/

/-- the fixed apology returned when the `try` of `__call__` catches. -/
def apologyText : List Char :=
  ("I apologize, but I encountered a technical issue. " ++
    "Please try again or contact support if the problem persists.").data

/-- the confirmation string returned by `clear_conversation`. -/
def clearedText : List Char := "Conversation history cleared.".data

/-- one loop body of `__call__` after a completion arrives: append the
assistant message; if `"Response:" in completion` return the text after the
last marker (stripped); else if both `"Action:"` and `"Action Input:"`
occur, run the dispatcher and append its Observation as a user message;
else fall through and iterate again.  Returns the new message list and
`some finalText` when the turn ends. -/
def stepCompletion {J : Type} (reg : Registry J) (dec : List Char → Option J)
    (msgs : List Msg) (completion : List Char) :
    List Msg × Option (List Char) :=
  let msgs1 := msgs ++ [⟨Role.assistant, completion⟩]
  if containsSub respMark completion then
    (msgs1, some (trimL (lastD (splitOnSub respMark completion))))
  else if containsSub actMark completion && containsSub inMark completion then
    (msgs1 ++ [⟨Role.user, toolCall reg dec completion⟩], none)
  else
    (msgs1, none)

/-- fuel-interpreted `while True` loop of `__call__`.  A provider `.error`
is the exception caught by the surrounding `try`: the loop returns the
apology with the messages accumulated so far.  `none` means the loop is
still running after `fuel` iterations. -/
def runLoop {J : Type} (reg : Registry J) (dec : List Char → Option J)
    (provider : List Msg → Except Unit (List Char)) :
    Nat → List Msg → Option (List Msg × List Char)
  | 0, _ => none
  | fuel + 1, msgs =>
    match provider msgs with
    | Except.error _ => some (msgs, apologyText)
    | Except.ok c =>
      match stepCompletion reg dec msgs c with
      | (msgs2, some t) => some (msgs2, t)
      | (msgs2, none) => runLoop reg dec provider fuel msgs2

/-- `HealthGuardAgent.__call__`: append the `Patient:`-prefixed user
message, then run the loop. -/
def callAgent {J : Type} (reg : Registry J) (dec : List Char → Option J)
    (provider : List Msg → Except Unit (List Char)) (fuel : Nat)
    (msgs : List Msg) (prompt : List Char) : Option (List Msg × List Char) :=
  runLoop reg dec provider fuel (msgs ++ [⟨Role.user, "Patient: ".data ++ prompt⟩])

/-- `HealthGuardAgent.__init__` message setup: `self.messages = []` followed
by appending the single system message. -/
def initMsgs (systemPrompt : List Char) : List Msg :=
  [⟨Role.sys, systemPrompt⟩]

/-- `get_conversation_history`: returns `self.messages`. -/
def getHistory (msgs : List Msg) : List Msg := msgs

/-- `clear_conversation`: keep `self.messages[0]`, return the confirmation
string.  The source indexes `[0]`, which presupposes the (invariant)
non-emptiness; the empty case is modelled as the empty truncation. -/
def clearConv (msgs : List Msg) : List Msg × List Char :=
  match msgs with
  | [] => ([], clearedText)
  | m :: _ => ([m], clearedText)

-- sanity checks on the string primitives
example : trimL "  ab c\n".data = "ab c".data := by decide
example : splitOnSub "X:".data "aX:bX:c".data = ["a".data, "b".data, "c".data] := by
  decide
example : lastD (splitOnSub "R:".data "xR: a R: b ".data) = " b ".data := by decide
example : replaceSub "Action:".data [] "Action: go".data = " go".data := by decide
example : containsSub "cd".data "abcde".data = true := by decide
example : containsSub "cd".data "abce".data = false := by decide
example : startsWithL "Action:".data "Action Input: x".data = false := by decide

-- sanity checks on the parser (decoder that never succeeds)
example :
    parseActionString (J := Unit) (fun _ => none)
      "Thought: ok\nAction: med_tool\nAction Input: dose\nObservation:".data =
    (some "med_tool".data, ToolArg.raw "dose".data) := by decide

example :
    parseActionString (J := Unit) (fun _ => none)
      "Action: a\nAction: b\nAction Input: x\nAction Input: y".data =
    (some "b".data, ToolArg.raw "x\ny".data) := by decide

example :
    parseActionString (J := Unit) (fun _ => none)
      "Action Input: \x7b\n  \x22k\x22: 1\n\x7d".data =
    (none, ToolArg.raw "\x7b\n\x22k\x22: 1\n\x7d".data) := by decide

/-! ## String-primitive lemmas -/

theorem stripPre_iff (sep : List Char) :
    ∀ s r, stripPre sep s = some r ↔ s = sep ++ r := by
  induction sep with
  | nil => intro s r; simp [stripPre]
  | cons c cs ih =>
    intro s r
    cases s with
    | nil => simp [stripPre]
    | cons d ds =>
      simp only [stripPre, List.cons_append, List.cons.injEq]
      by_cases h : c = d
      · subst h; simp [ih]
      · rw [if_neg h]
        constructor
        · intro hh; exact absurd hh (by simp)
        · rintro ⟨hdc, -⟩; exact absurd hdc.symm h

theorem stripPre_append (sep r : List Char) : stripPre sep (sep ++ r) = some r :=
  (stripPre_iff sep (sep ++ r) r).mpr rfl

theorem breakOnSub_some (sep : List Char) :
    ∀ s p q, breakOnSub sep s = some (p, q) → s = p ++ sep ++ q := by
  intro s
  induction s with
  | nil =>
    intro p q h
    simp only [breakOnSub] at h
    cases hs : stripPre sep [] with
    | none => rw [hs] at h; exact absurd h (by simp)
    | some r =>
      rw [hs] at h
      obtain ⟨h1, h2⟩ := Prod.mk.injEq .. ▸ (Option.some.injEq .. ▸ h)
      have := (stripPre_iff sep [] r).mp hs
      simp [← h1, ← h2, ← this]
  | cons c cs ih =>
    intro p q h
    simp only [breakOnSub] at h
    cases hs : stripPre sep (c :: cs) with
    | some r =>
      rw [hs] at h
      obtain ⟨h1, h2⟩ := Prod.mk.injEq .. ▸ (Option.some.injEq .. ▸ h)
      have := (stripPre_iff sep (c :: cs) r).mp hs
      simp [← h1, ← h2, this]
    | none =>
      rw [hs] at h
      cases hb : breakOnSub sep cs with
      | none => rw [hb] at h; exact absurd h (by simp)
      | some pq =>
        obtain ⟨p', q'⟩ := pq
        rw [hb] at h
        obtain ⟨h1, h2⟩ := Prod.mk.injEq .. ▸ (Option.some.injEq .. ▸ h)
        have := ih p' q' hb
        subst h2
        simp [← h1, this]

theorem breakOnSub_length (sep : List Char) (hsep : sep ≠ []) :
    ∀ s p q, breakOnSub sep s = some (p, q) → q.length < s.length := by
  intro s p q h
  have hd := breakOnSub_some sep s p q h
  subst hd
  have : 0 < sep.length := List.length_pos.mpr hsep
  simp [List.length_append]
  omega

theorem containsSub_cons (sep : List Char) (c : Char) (cs : List Char) :
    containsSub sep (c :: cs) = (startsWithL sep (c :: cs) || containsSub sep cs) := by
  simp only [containsSub, breakOnSub, startsWithL]
  cases hs : stripPre sep (c :: cs) with
  | some r => simp
  | none =>
    cases hb : breakOnSub sep cs with
    | none => simp [hb]
    | some pq => obtain ⟨p, q⟩ := pq; simp [hb]

theorem containsSub_append_self (sep p q : List Char) (hsep : sep ≠ []) :
    containsSub sep (p ++ sep ++ q) = true := by
  induction p with
  | nil =>
    obtain ⟨c, cs, rfl⟩ : ∃ c cs, sep = c :: cs := by
      cases sep with
      | nil => exact absurd rfl hsep
      | cons c cs => exact ⟨c, cs, rfl⟩
    have hst : stripPre (c :: cs) (c :: (cs ++ q)) = some q :=
      stripPre_append (c :: cs) q
    simp only [containsSub, List.nil_append, List.cons_append, breakOnSub,
      List.append_eq, hst]
    rfl
  | cons a p' ih =>
    have : (a :: p') ++ sep ++ q = a :: (p' ++ sep ++ q) := by simp
    rw [this, containsSub_cons, ih, Bool.or_true]

theorem breakOnSub_single_none {c : Char} {s : List Char}
    (h : c ∉ s) : breakOnSub [c] s = none := by
  induction s with
  | nil => rfl
  | cons d ds ih =>
    have hcd : ¬ c = d := fun hh => h (hh ▸ List.mem_cons_self d ds)
    have hds : c ∉ ds := fun hh => h (List.mem_cons_of_mem d hh)
    simp only [breakOnSub, stripPre, if_neg hcd, ih hds]

theorem breakOnSub_single_not_mem {c : Char} :
    ∀ {s p q : List Char}, breakOnSub [c] s = some (p, q) → c ∉ p := by
  intro s
  induction s with
  | nil => intro p q h; simp [breakOnSub, stripPre] at h
  | cons d ds ih =>
    intro p q h
    by_cases hcd : c = d
    · subst hcd
      simp only [breakOnSub, stripPre, if_pos rfl] at h
      obtain ⟨h1, -⟩ := Prod.mk.injEq .. ▸ (Option.some.injEq .. ▸ h)
      simp [← h1]
    · simp only [breakOnSub, stripPre, if_neg hcd] at h
      cases hb : breakOnSub [c] ds with
      | none => rw [hb] at h; exact absurd h (by simp)
      | some pq =>
        obtain ⟨p', q'⟩ := pq
        rw [hb] at h
        obtain ⟨h1, -⟩ := Prod.mk.injEq .. ▸ (Option.some.injEq .. ▸ h)
        intro hmem
        rw [← h1] at hmem
        rcases List.mem_cons.mp hmem with h2 | h2
        · exact hcd h2
        · exact ih hb h2

theorem breakOnSub_nl {l : List Char} (rest : List Char) (h : '\n' ∉ l) :
    breakOnSub ['\n'] (l ++ '\n' :: rest) = some (l, rest) := by
  induction l with
  | nil => rfl
  | cons d ds ih =>
    have hcd : ¬ '\n' = d := fun hh => h (hh ▸ List.mem_cons_self d ds)
    have hds : '\n' ∉ ds := fun hh => h (List.mem_cons_of_mem d hh)
    simp only [List.cons_append, breakOnSub, stripPre, if_neg hcd,
      List.append_eq, ih hds]

theorem splitFuel_of_none {sep : List Char} {s : List Char}
    (h : breakOnSub sep s = none) : ∀ n, splitFuel sep n s = [s] := by
  intro n
  cases n with
  | zero => rfl
  | succ m => simp [splitFuel, h]

theorem splitFuel_fuel_inv (sep : List Char) (hsep : sep ≠ []) :
    ∀ n m s, s.length ≤ n → s.length ≤ m →
      splitFuel sep n s = splitFuel sep m s := by
  intro n
  induction n with
  | zero =>
    intro m s hn _
    have : s = [] := List.length_eq_zero.mp (Nat.le_zero.mp hn)
    subst this
    have hb : breakOnSub sep [] = none := by
      cases sep with
      | nil => exact absurd rfl hsep
      | cons c cs => rfl
    rw [splitFuel_of_none hb 0, splitFuel_of_none hb m]
  | succ n' ih =>
    intro m s hn hm
    cases hb : breakOnSub sep s with
    | none => rw [splitFuel_of_none hb (n' + 1), splitFuel_of_none hb m]
    | some pq =>
      obtain ⟨p, q⟩ := pq
      have hql : q.length < s.length := breakOnSub_length sep hsep s p q hb
      cases m with
      | zero =>
        exact absurd (Nat.lt_of_lt_of_le hql hm) (Nat.not_lt_zero _)
      | succ m' =>
        simp only [splitFuel, hb]
        rw [ih m' q (by omega) (by omega)]

theorem splitOnSub_nl_cons {l : List Char} (rest : List Char) (h : '\n' ∉ l) :
    splitOnSub ['\n'] (l ++ '\n' :: rest) = l :: splitOnSub ['\n'] rest := by
  have hne : (['\n'] : List Char) ≠ [] := by simp
  have hlen : (l ++ '\n' :: rest).length = l.length + rest.length + 1 := by
    simp [List.length_append]; omega
  simp only [splitOnSub, List.isEmpty_cons]
  rw [hlen]
  cases hsuc : l.length + rest.length + 1 with
  | zero => omega
  | succ k =>
    simp only [splitFuel, breakOnSub_nl rest h]
    rw [splitFuel_fuel_inv ['\n'] hne k rest.length rest (by omega) (by omega)]
    simp

theorem splitOnSub_nl_single {l : List Char} (h : '\n' ∉ l) :
    splitOnSub ['\n'] l = [l] := by
  simp only [splitOnSub, List.isEmpty_cons]
  exact splitFuel_of_none (breakOnSub_single_none h) l.length

theorem splitOnSub_joinNL :
    ∀ ls : List (List Char), ls ≠ [] → (∀ l ∈ ls, '\n' ∉ l) →
      splitOnSub ['\n'] (joinNL ls) = ls := by
  intro ls
  induction ls with
  | nil => intro h; exact absurd rfl h
  | cons l ls' ih =>
    intro _ hmem
    cases ls' with
    | nil =>
      exact splitOnSub_nl_single (hmem l (List.mem_cons_self l []))
    | cons l2 ls2 =>
      have : joinNL (l :: l2 :: ls2) = l ++ '\n' :: joinNL (l2 :: ls2) := rfl
      rw [this, splitOnSub_nl_cons (joinNL (l2 :: ls2))
        (hmem l (List.mem_cons_self l _)),
        ih (by simp) (fun x hx => hmem x (List.mem_cons_of_mem l hx))]

theorem replFuel_of_not_contains {sep repl s : List Char}
    (h : containsSub sep s = false) : ∀ n, replFuel sep repl n s = s := by
  intro n
  have hb : breakOnSub sep s = none := by
    cases hbb : breakOnSub sep s with
    | none => rfl
    | some pq => rw [containsSub, hbb] at h; simp at h
  cases n with
  | zero => rfl
  | succ m => simp [replFuel, hb]

theorem replaceSub_of_not_contains {sep repl s : List Char}
    (h : containsSub sep s = false) : replaceSub sep repl s = s := by
  by_cases hsep : sep.isEmpty
  · simp [replaceSub, hsep]
  · simp [replaceSub, hsep, replFuel_of_not_contains h]

theorem replaceSub_marker_pre {sep repl a : List Char} (hsep : sep ≠ [])
    (h : containsSub sep a = false) :
    replaceSub sep repl (sep ++ a) = repl ++ a := by
  obtain ⟨c, cs, rfl⟩ : ∃ c cs, sep = c :: cs := by
    cases sep with
    | nil => exact absurd rfl hsep
    | cons c cs => exact ⟨c, cs, rfl⟩
  have hlen : ((c :: cs) ++ a).length = (cs ++ a).length + 1 := by simp
  have hst : stripPre (c :: cs) ((c :: cs) ++ a) = some a :=
    stripPre_append (c :: cs) a
  have hbrk : breakOnSub (c :: cs) ((c :: cs) ++ a) = some ([], a) := by
    simp only [List.cons_append, breakOnSub, List.append_eq]
    rw [show stripPre (c :: cs) (c :: (cs ++ a)) = some a from hst]
  simp only [replaceSub, List.isEmpty_cons, Bool.false_eq_true, if_false, hlen,
    replFuel, hbrk, List.nil_append]
  rw [replFuel_of_not_contains h]

theorem lastD_cons_of_ne {x : List Char} {l : List (List Char)} (h : l ≠ []) :
    lastD (x :: l) = lastD l := by
  cases l with
  | nil => exact absurd rfl h
  | cons y ys => rfl

theorem splitFuel_ne_nil (sep : List Char) : ∀ n s, splitFuel sep n s ≠ [] := by
  intro n s
  cases n with
  | zero => simp [splitFuel]
  | succ m =>
    simp only [splitFuel]
    cases hb : breakOnSub sep s with
    | none => simp
    | some pq => obtain ⟨p, q⟩ := pq; simp

/-- the element produced by `s.split(sep)[-1]` is exactly the text after the
last occurrence of `sep` in `s`: `s` decomposes as `p ++ sep ++ last` and
`sep` does not occur in `last`. -/
theorem splitFuel_last (sep : List Char) (hsep : sep ≠ []) :
    ∀ n s, s.length ≤ n → containsSub sep s = true →
      ∃ p, s = p ++ sep ++ lastD (splitFuel sep n s) ∧
        containsSub sep (lastD (splitFuel sep n s)) = false := by
  intro n
  induction n with
  | zero =>
    intro s hn hc
    have : s = [] := List.length_eq_zero.mp (Nat.le_zero.mp hn)
    subst this
    have hb : breakOnSub sep [] = none := by
      cases sep with
      | nil => exact absurd rfl hsep
      | cons c cs => rfl
    rw [containsSub, hb] at hc
    simp at hc
  | succ n' ih =>
    intro s hn hc
    obtain ⟨pq, hb⟩ : ∃ pq, breakOnSub sep s = some pq := by
      cases hbb : breakOnSub sep s with
      | none => rw [containsSub, hbb] at hc; simp at hc
      | some pq => exact ⟨pq, rfl⟩
    obtain ⟨p0, q⟩ := pq
    have hdec := breakOnSub_some sep s p0 q hb
    have hql : q.length < s.length := breakOnSub_length sep hsep s p0 q hb
    have hstep : splitFuel sep (n' + 1) s = p0 :: splitFuel sep n' q := by
      simp [splitFuel, hb]
    rw [hstep, lastD_cons_of_ne (splitFuel_ne_nil sep n' q)]
    cases hcq : containsSub sep q with
    | true =>
      obtain ⟨p1, hq, hlast⟩ := ih q (by omega) hcq
      set L := lastD (splitFuel sep n' q) with hL
      refine ⟨p0 ++ sep ++ p1, ?_, hlast⟩
      rw [hdec, hq]
      simp
    | false =>
      have hbq : breakOnSub sep q = none := by
        cases hbb : breakOnSub sep q with
        | none => rfl
        | some pq2 => rw [containsSub, hbb] at hcq; simp at hcq
      rw [splitFuel_of_none hbq n']
      exact ⟨p0, by simpa using hdec, by simpa [lastD] using hcq⟩

theorem splitOnSub_last {sep s : List Char} (hsep : sep ≠ [])
    (h : containsSub sep s = true) :
    ∃ p, s = p ++ sep ++ lastD (splitOnSub sep s) ∧
      containsSub sep (lastD (splitOnSub sep s)) = false := by
  have hne : sep.isEmpty = false := by
    cases sep with
    | nil => exact absurd rfl hsep
    | cons c cs => rfl
  simp only [splitOnSub, hne, Bool.false_eq_true, if_false]
  exact splitFuel_last sep hsep s.length s (Nat.le_refl _) h

/-! ## Registry lemmas -/

theorem dictFind_dictInsert {J : Type} :
    ∀ (d : Registry J) (k : List Char) (v : HealthTool J) (k' : List Char),
      dictFind (dictInsert d (k, v)) k' =
        if k = k' then some v else dictFind d k' := by
  intro d
  induction d with
  | nil =>
    intro k v k'
    by_cases h : k = k' <;> simp [dictInsert, dictFind, h]
  | cons e rest ih =>
    intro k v k'
    obtain ⟨k0, v0⟩ := e
    by_cases h0 : k0 = k
    · subst h0
      by_cases h : k0 = k' <;> simp [dictInsert, dictFind, h]
    · by_cases h : k0 = k'
      · subst h
        have hne : ¬ (k = k0) := fun hh => h0 hh.symm
        simp [dictInsert, dictFind, h0, hne]
      · simp [dictInsert, dictFind, h0, h, ih k v k']

theorem dictFind_foldl_dictInsert {J : Type} :
    ∀ (ts : List (HealthTool J)) (d : Registry J) (k : List Char),
      dictFind ((ts.map fun t => (t.name, t)).foldl dictInsert d) k =
        match ts.reverse.find? (fun t => decide (t.name = k)) with
        | some u => some u
        | none => dictFind d k := by
  intro ts
  induction ts with
  | nil => intro d k; rfl
  | cons t ts' ih =>
    intro d k
    simp only [List.map_cons, List.foldl_cons, List.reverse_cons,
      List.find?_append]
    rw [ih (dictInsert d (t.name, t)) k]
    cases hf : ts'.reverse.find? (fun t => decide (t.name = k)) with
    | some u => simp [hf]
    | none =>
      simp only [hf, Option.none_orElse]
      rw [dictFind_dictInsert d t.name t k]
      by_cases h : t.name = k
      · simp [List.find?, h]
      · simp [List.find?, h]

/-- what `_format_tools` actually computes for lookup purposes: the entry
found under key `k` is the LAST tool in the list whose (normalized) name is
`k`; duplicates are silently overwritten, never rejected. -/
theorem dictFind_formatTools {J : Type} (ts : List (HealthTool J))
    (k : List Char) :
    dictFind (formatTools ts) k =
      ts.reverse.find? (fun t => decide (t.name = k)) := by
  rw [formatTools, dictFind_foldl_dictInsert ts [] k]
  cases hf : ts.reverse.find? (fun t => decide (t.name = k)) with
  | some u => rfl
  | none => rfl

theorem dictFind_mem_keys {J : Type} :
    ∀ (d : Registry J) (k : List Char) (t : HealthTool J),
      dictFind d k = some t → k ∈ dictKeys d := by
  intro d
  induction d with
  | nil => intro k t h; simp [dictFind] at h
  | cons e rest ih =>
    intro k t h
    obtain ⟨k0, v0⟩ := e
    by_cases h0 : k0 = k
    · subst h0
      exact List.mem_cons_self k0 (dictKeys rest)
    · simp only [dictFind, if_neg h0] at h
      simp only [dictKeys, List.map_cons, List.mem_cons]
      exact Or.inr (ih k t h)

/-! ## Normalized tool names contain no space (for C10) -/

theorem not_mem_of_breakOnSub_none {c : Char} :
    ∀ {s : List Char}, breakOnSub [c] s = none → c ∉ s := by
  intro s
  induction s with
  | nil => intro _; simp
  | cons d ds ih =>
    intro h
    by_cases hcd : c = d
    · subst hcd; simp [breakOnSub, stripPre] at h
    · simp only [breakOnSub, stripPre, if_neg hcd] at h
      cases hb : breakOnSub [c] ds with
      | none =>
        simp only [List.mem_cons, not_or]
        exact ⟨hcd, ih hb⟩
      | some pq =>
        obtain ⟨p, q⟩ := pq
        rw [hb] at h
        simp at h

theorem replFuel_single_no_mem {c d : Char} (hcd : c ≠ d) :
    ∀ n s, s.length ≤ n → c ∉ replFuel [c] [d] n s := by
  intro n
  induction n with
  | zero =>
    intro s hn
    have : s = [] := List.length_eq_zero.mp (Nat.le_zero.mp hn)
    subst this
    simp [replFuel]
  | succ n' ih =>
    intro s hn
    cases hb : breakOnSub [c] s with
    | none =>
      simp only [replFuel, hb]
      exact not_mem_of_breakOnSub_none hb
    | some pq =>
      obtain ⟨p, q⟩ := pq
      have hdec := breakOnSub_some [c] s p q hb
      have hql : q.length < s.length :=
        breakOnSub_length [c] (by simp) s p q hb
      simp only [replFuel, hb]
      intro hmem
      rcases List.mem_append.mp hmem with hm | hm
      · rcases List.mem_append.mp hm with hm2 | hm2
        · exact breakOnSub_single_not_mem hb hm2
        · simp at hm2; exact hcd hm2
      · exact ih q (by omega) hm

/-- the normalized name `name.lower().replace(' ', '_')` is space-free. -/
theorem mkTool_name_no_space {J : Type} (t : HealthTool J) :
    ' ' ∉ (mkTool t).name := by
  show ' ' ∉ replaceSub [' '] ['_'] (lowerL t.name)
  rw [replaceSub]
  simp only [List.isEmpty_cons, Bool.false_eq_true, if_false]
  exact replFuel_single_no_mem (by decide) (lowerL t.name).length
    (lowerL t.name) (Nat.le_refl _)

/-- dispatch lookup on a registry built from normalized tools fails for any
key that still contains a space. -/
theorem dictFind_formatTools_space {J : Type} (raws : List (HealthTool J))
    (k : List Char) (hk : ' ' ∈ k) :
    dictFind (formatTools (raws.map mkTool)) k = none := by
  rw [dictFind_formatTools]
  cases hf : (raws.map mkTool).reverse.find? (fun t => decide (t.name = k)) with
  | none => rfl
  | some u =>
    have hmem : u ∈ (raws.map mkTool).reverse := List.mem_of_find?_eq_some hf
    have hname : u.name = k := by
      have hp := List.find?_some hf
      simpa using hp
    rw [List.mem_reverse, List.mem_map] at hmem
    obtain ⟨r, -, rfl⟩ := hmem
    exact absurd (hname ▸ hk) (mkTool_name_no_space r)

/-! ## Scanner lemmas (for the parser claims) -/

theorem startsWithL_self (sep r : List Char) : startsWithL sep (sep ++ r) = true := by
  simp [startsWithL, stripPre_append]

theorem sw_act_in (a : List Char) : startsWithL actMark (inMark ++ a) = false := rfl

theorem sw_in_act (x : List Char) : startsWithL inMark (actMark ++ x) = false := rfl

theorem sw_obs_act (x : List Char) : startsWithL obsMark (actMark ++ x) = false := rfl

theorem sw_obs_in (a : List Char) : startsWithL obsMark (inMark ++ a) = false := rfl

theorem sw_act_obs (o : List Char) : startsWithL actMark (obsMark ++ o) = false := rfl

theorem sw_in_obs (o : List Char) : startsWithL inMark (obsMark ++ o) = false := rfl

theorem actMark_ne_nil : actMark ≠ [] := by decide

theorem inMark_ne_nil : inMark ≠ [] := by decide

/-- an `Action:` line: the candidate tool name is overwritten with the
stripped text after the marker; nothing else changes. -/
theorem scanStep_act (st : ScanSt) (x : List Char)
    (hx : containsSub actMark x = false) :
    scanStep st (actMark ++ x) = { st with action := some (trimL x) } := by
  simp [scanStep, startsWithL_self, replaceSub_marker_pre actMark_ne_nil hx]

/-- an `Action Input:` line: accumulation switches on and the stripped
payload is pushed when non-empty. -/
theorem scanStep_in (st : ScanSt) (a : List Char)
    (ha : containsSub inMark a = false) :
    scanStep st (inMark ++ a) =
      { st with
          isAI := true,
          segs := if (trimL a).isEmpty then st.segs else st.segs ++ [trimL a] } := by
  simp only [scanStep, sw_act_in, Bool.false_eq_true, if_false,
    startsWithL_self, if_true, replaceSub_marker_pre inMark_ne_nil ha,
    List.nil_append]

/-- an `Observation:` line: accumulation switches off. -/
theorem scanStep_obs (st : ScanSt) (o : List Char) :
    scanStep st (obsMark ++ o) = { st with isAI := false } := by
  simp [scanStep, sw_act_obs, sw_in_obs, startsWithL_self]

/-- a plain line: pushed stripped when accumulation is on and the stripped
text is non-empty, otherwise ignored. -/
theorem scanStep_plain (st : ScanSt) (l : List Char)
    (h1 : startsWithL actMark l = false) (h2 : startsWithL inMark l = false)
    (h3 : startsWithL obsMark l = false) :
    scanStep st l =
      if st.isAI && !(trimL l).isEmpty
      then { st with segs := st.segs ++ [trimL l] } else st := by
  simp [scanStep, h1, h2, h3]

/-- a predicate for lines that begin with none of the three markers. -/
def PlainLine (l : List Char) : Prop :=
  startsWithL actMark l = false ∧ startsWithL inMark l = false ∧
    startsWithL obsMark l = false

/-- folding plain lines while accumulation is on appends exactly the
stripped, non-empty ones, in order. -/
theorem foldl_scanStep_cont :
    ∀ (ls : List (List Char)) (act : Option (List Char))
      (segs : List (List Char)),
      (∀ l ∈ ls, PlainLine l) →
      List.foldl scanStep ⟨act, segs, true⟩ ls =
        ⟨act, segs ++ (ls.map trimL).filter (fun t => !t.isEmpty), true⟩ := by
  intro ls
  induction ls with
  | nil => intro act segs _; simp
  | cons l ls' ih =>
    intro act segs hpl
    obtain ⟨h1, h2, h3⟩ := hpl l (List.mem_cons_self l ls')
    have hrest : ∀ l ∈ ls', PlainLine l :=
      fun x hx => hpl x (List.mem_cons_of_mem l hx)
    simp only [List.foldl_cons, scanStep_plain ⟨act, segs, true⟩ l h1 h2 h3]
    cases hemp : (trimL l).isEmpty with
    | true =>
      rw [if_neg (by simp [hemp])]
      rw [ih act segs hrest]
      simp [List.filter_cons, hemp]
    | false =>
      rw [if_pos (by simp [hemp])]
      rw [ih act (segs ++ [trimL l]) hrest]
      simp [List.filter_cons, hemp]

/-- folding plain lines while accumulation is off changes nothing. -/
theorem foldl_scanStep_off :
    ∀ (ls : List (List Char)) (act : Option (List Char))
      (segs : List (List Char)),
      (∀ l ∈ ls, PlainLine l) →
      List.foldl scanStep ⟨act, segs, false⟩ ls = ⟨act, segs, false⟩ := by
  intro ls
  induction ls with
  | nil => intro act segs _; simp
  | cons l ls' ih =>
    intro act segs hpl
    obtain ⟨h1, h2, h3⟩ := hpl l (List.mem_cons_self l ls')
    rw [List.foldl_cons, scanStep_plain ⟨act, segs, false⟩ l h1 h2 h3,
      if_neg (by simp)]
    exact ih act segs (fun x hx => hpl x (List.mem_cons_of_mem l hx))

/-! ## Loop lemmas -/

theorem stepCompletion_resp {J : Type} (reg : Registry J)
    (dec : List Char → Option J) (msgs : List Msg) (c : List Char)
    (h : containsSub respMark c = true) :
    stepCompletion reg dec msgs c =
      (msgs ++ [⟨Role.assistant, c⟩],
        some (trimL (lastD (splitOnSub respMark c)))) := by
  simp [stepCompletion, h]

theorem stepCompletion_tool {J : Type} (reg : Registry J)
    (dec : List Char → Option J) (msgs : List Msg) (c : List Char)
    (h1 : containsSub respMark c = false) (h2 : containsSub actMark c = true)
    (h3 : containsSub inMark c = true) :
    stepCompletion reg dec msgs c =
      (msgs ++ [⟨Role.assistant, c⟩, ⟨Role.user, toolCall reg dec c⟩], none) := by
  simp [stepCompletion, h1, h2, h3]

theorem stepCompletion_fall {J : Type} (reg : Registry J)
    (dec : List Char → Option J) (msgs : List Msg) (c : List Char)
    (h1 : containsSub respMark c = false)
    (h23 : containsSub actMark c = false ∨ containsSub inMark c = false) :
    stepCompletion reg dec msgs c = (msgs ++ [⟨Role.assistant, c⟩], none) := by
  rcases h23 with h | h <;> simp [stepCompletion, h1, h]

theorem stepCompletion_extends {J : Type} (reg : Registry J)
    (dec : List Char → Option J) (msgs : List Msg) (c : List Char) :
    ∃ suf, (stepCompletion reg dec msgs c).1 = msgs ++ suf := by
  simp only [stepCompletion]
  split
  · exact ⟨[⟨Role.assistant, c⟩], rfl⟩
  · split
    · exact ⟨[⟨Role.assistant, c⟩, ⟨Role.user, toolCall reg dec c⟩], by simp⟩
    · exact ⟨[⟨Role.assistant, c⟩], rfl⟩

/-- one-step unfolding of the loop at positive fuel. -/
theorem runLoop_succ {J : Type} (reg : Registry J)
    (dec : List Char → Option J)
    (provider : List Msg → Except Unit (List Char)) (fuel : Nat)
    (msgs : List Msg) :
    runLoop reg dec provider (fuel + 1) msgs =
      (match provider msgs with
      | Except.error _ => some (msgs, apologyText)
      | Except.ok c =>
        match stepCompletion reg dec msgs c with
        | (msgs2, some t) => some (msgs2, t)
        | (msgs2, none) => runLoop reg dec provider fuel msgs2) := rfl

/-- a provider failure ends the turn with the apology and the messages
accumulated so far. -/
theorem runLoop_err {J : Type} (reg : Registry J)
    (dec : List Char → Option J)
    (provider : List Msg → Except Unit (List Char)) (fuel : Nat)
    (msgs : List Msg) (h : provider msgs = Except.error ()) :
    runLoop reg dec provider (fuel + 1) msgs = some (msgs, apologyText) := by
  rw [runLoop_succ, h]

/-- a successful provider call reduces the loop to the step dispatch on
its completion. -/
theorem runLoop_ok {J : Type} (reg : Registry J)
    (dec : List Char → Option J)
    (provider : List Msg → Except Unit (List Char)) (fuel : Nat)
    (msgs : List Msg) (c : List Char)
    (h : provider msgs = Except.ok c) :
    runLoop reg dec provider (fuel + 1) msgs =
      (match stepCompletion reg dec msgs c with
      | (msgs2, some t) => some (msgs2, t)
      | (msgs2, none) => runLoop reg dec provider fuel msgs2) := by
  rw [runLoop_succ, h]

/-- a completion that ends the turn makes the loop return it. -/
theorem runLoop_ok_final {J : Type} (reg : Registry J)
    (dec : List Char → Option J)
    (provider : List Msg → Except Unit (List Char)) (fuel : Nat)
    (msgs msgs2 : List Msg) (c t : List Char)
    (h : provider msgs = Except.ok c)
    (hstep : stepCompletion reg dec msgs c = (msgs2, some t)) :
    runLoop reg dec provider (fuel + 1) msgs = some (msgs2, t) := by
  rw [runLoop_ok reg dec provider fuel msgs c h, hstep]

/-- a completion that does not end the turn makes the loop continue. -/
theorem runLoop_ok_cont {J : Type} (reg : Registry J)
    (dec : List Char → Option J)
    (provider : List Msg → Except Unit (List Char)) (fuel : Nat)
    (msgs msgs2 : List Msg) (c : List Char)
    (h : provider msgs = Except.ok c)
    (hstep : stepCompletion reg dec msgs c = (msgs2, none)) :
    runLoop reg dec provider (fuel + 1) msgs =
      runLoop reg dec provider fuel msgs2 := by
  rw [runLoop_ok reg dec provider fuel msgs c h, hstep]

/-- the loop only ever appends to the conversation. -/
theorem runLoop_extends {J : Type} (reg : Registry J)
    (dec : List Char → Option J)
    (provider : List Msg → Except Unit (List Char)) :
    ∀ (fuel : Nat) (msgs m : List Msg) (t : List Char),
      runLoop reg dec provider fuel msgs = some (m, t) →
      ∃ suf, m = msgs ++ suf := by
  intro fuel
  induction fuel with
  | zero => intro msgs m t h; simp [runLoop] at h
  | succ n ih =>
    intro msgs m t h
    cases hp : provider msgs with
    | error e =>
      obtain ⟨⟩ := e
      rw [runLoop_err reg dec provider n msgs hp] at h
      obtain ⟨h1, -⟩ := Prod.mk.injEq .. ▸ (Option.some.injEq .. ▸ h)
      exact ⟨[], by simp [← h1]⟩
    | ok c =>
      obtain ⟨suf1, hsuf1⟩ := stepCompletion_extends reg dec msgs c
      cases hstep : stepCompletion reg dec msgs c with
      | mk msgs2 fin =>
        rw [hstep] at hsuf1
        simp only at hsuf1
        cases fin with
        | some tt =>
          rw [runLoop_ok_final reg dec provider n msgs msgs2 c tt hp hstep] at h
          obtain ⟨h1, -⟩ := Prod.mk.injEq .. ▸ (Option.some.injEq .. ▸ h)
          exact ⟨suf1, by rw [← h1, hsuf1]⟩
        | none =>
          rw [runLoop_ok_cont reg dec provider n msgs msgs2 c hp hstep] at h
          obtain ⟨suf2, hsuf2⟩ := ih msgs2 m t h
          exact ⟨suf1 ++ suf2, by rw [hsuf2, hsuf1, List.append_assoc]⟩

theorem respMark_ne_nil : respMark ≠ [] := by decide

/-! ## Claim theorems -/

/-- shared concrete decoder for witnesses: a JSON decoder that always
fails (models inputs that are not valid JSON). -/
def noJson : List Char → Option Unit := fun _ => none

/-- shared empty registry for witnesses. -/
def emptyReg : Registry Unit := []

/-- C1.  For every completion containing `Response:`, the loop body appends
only the assistant message (no tool step, no Observation message), ends
the turn at once, and the returned text is exactly the text after the LAST
occurrence of `Response:` in the completion, stripped of surrounding
whitespace — even when the completion also contains `Action:` markers,
since the `Response:` check precedes the tool-step check. -/
theorem C1_response_wins {J : Type} (reg : Registry J)
    (dec : List Char → Option J) (msgs : List Msg) (c : List Char)
    (h : containsSub respMark c = true) :
    ∃ pre rest, c = pre ++ respMark ++ rest ∧
      containsSub respMark rest = false ∧
      stepCompletion reg dec msgs c =
        (msgs ++ [⟨Role.assistant, c⟩], some (trimL rest)) ∧
      ∀ (provider : List Msg → Except Unit (List Char)) (fuel : Nat),
        provider msgs = Except.ok c →
        runLoop reg dec provider (fuel + 1) msgs =
          some (msgs ++ [⟨Role.assistant, c⟩], trimL rest) := by
  obtain ⟨p, hdec, hlast⟩ := splitOnSub_last respMark_ne_nil h
  refine ⟨p, lastD (splitOnSub respMark c), hdec, hlast,
    stepCompletion_resp reg dec msgs c h, ?_⟩
  intro provider fuel hprov
  exact runLoop_ok_final reg dec provider fuel msgs _ c _ hprov
    (stepCompletion_resp reg dec msgs c h)

/-- sample completion for the C1 witness: contains `Action:`,
`Action Input:` and a final `Response:`. -/
def c1ex : List Char :=
  "Thought: t\nAction: med_tool\nAction Input: x\nResponse:  All done. ".data

theorem C1_response_wins_witness :
    ∃ pre rest, c1ex = pre ++ respMark ++ rest ∧
      containsSub respMark rest = false ∧
      stepCompletion emptyReg noJson [] c1ex =
        ([⟨Role.assistant, c1ex⟩], some (trimL rest)) ∧
      ∀ (provider : List Msg → Except Unit (List Char)) (fuel : Nat),
        provider [] = Except.ok c1ex →
        runLoop emptyReg noJson provider (fuel + 1) [] =
          some ([⟨Role.assistant, c1ex⟩], trimL rest) := by
  have h := C1_response_wins emptyReg noJson [] c1ex (by decide)
  simpa using h

/-- a completion with neither a `Response:` marker nor an
`Action:`/`Action Input:` pair. -/
def noMarkerText : List Char := "I do not know what to do next.".data

/-- C2.  The code has no bounded retry/escalation policy: with any
provider that keeps answering with completions containing neither a
`Response:` marker nor a complete `Action:`/`Action Input:` pair, the
`while True` loop of `__call__` never terminates — after any number of
iterations it is still running (`none`), for every registry, decoder and
starting conversation.  This contradicts the claim that the loop
terminates after a bounded number of iterations. -/
theorem C2_loop_unbounded {J : Type} (reg : Registry J)
    (dec : List Char → Option J)
    (provider : List Msg → Except Unit (List Char))
    (hmal : ∀ msgs, ∃ c, provider msgs = Except.ok c ∧
      containsSub respMark c = false ∧
      (containsSub actMark c = false ∨ containsSub inMark c = false)) :
    ∀ (fuel : Nat) (msgs : List Msg),
      runLoop reg dec provider fuel msgs = none := by
  intro fuel
  induction fuel with
  | zero => intro msgs; rfl
  | succ n ih =>
    intro msgs
    obtain ⟨c, hp, hr, hai⟩ := hmal msgs
    rw [runLoop_ok_cont reg dec provider n msgs
      (msgs ++ [⟨Role.assistant, c⟩]) c hp
      (stepCompletion_fall reg dec msgs c hr hai)]
    exact ih (msgs ++ [⟨Role.assistant, c⟩])

theorem C2_loop_unbounded_witness :
    runLoop emptyReg noJson (fun _ => Except.ok noMarkerText) 5 [] = none :=
  C2_loop_unbounded emptyReg noJson (fun _ => Except.ok noMarkerText)
    (fun _ => ⟨noMarkerText, rfl, by decide, Or.inl (by decide)⟩) 5 []

/-- C3.  If the provider call raises on the first attempt of a turn, the
turn returns the fixed apology text, and the conversation holds exactly
the messages appended before the failure: the `Patient:`-prefixed user
message is present, and no assistant message was added for the failed
attempt.  (The model of `__call__` is a total function — the `try` block
converts every provider failure into this return, so nothing propagates
to the caller.) -/
theorem C3_provider_failure {J : Type} (reg : Registry J)
    (dec : List Char → Option J)
    (provider : List Msg → Except Unit (List Char)) (fuel : Nat)
    (msgs : List Msg) (prompt : List Char)
    (h : provider (msgs ++ [⟨Role.user, "Patient: ".data ++ prompt⟩]) =
      Except.error ()) :
    callAgent reg dec provider (fuel + 1) msgs prompt =
      some (msgs ++ [⟨Role.user, "Patient: ".data ++ prompt⟩], apologyText) := by
  show runLoop reg dec provider (fuel + 1)
    (msgs ++ [⟨Role.user, "Patient: ".data ++ prompt⟩]) = _
  rw [runLoop_err reg dec provider fuel _ h]

theorem C3_provider_failure_witness :
    callAgent emptyReg noJson (fun _ => Except.error ()) 1
        [⟨Role.sys, "sp".data⟩] "hi".data =
      some ([⟨Role.sys, "sp".data⟩,
        ⟨Role.user, "Patient: ".data ++ "hi".data⟩], apologyText) :=
  C3_provider_failure emptyReg noJson (fun _ => Except.error ()) 0
    [⟨Role.sys, "sp".data⟩] "hi".data rfl

/-- C8.  The system message sits at index 0: it is placed there at
construction, `__call__` only appends so any returned conversation keeps
the same head, `get_conversation_history` returns the list unchanged, and
`clear_conversation` truncates to exactly the one message at index 0 and
returns the confirmation string. -/
theorem C8_system_head {J : Type} (reg : Registry J)
    (dec : List Char → Option J)
    (provider : List Msg → Except Unit (List Char)) (fuel : Nat)
    (msgs : List Msg) (prompt : List Char) (sp : List Char) :
    initMsgs sp = [⟨Role.sys, sp⟩] ∧
    (∀ m0 m t, msgs.head? = some m0 →
      callAgent reg dec provider fuel msgs prompt = some (m, t) →
      m.head? = some m0) ∧
    getHistory msgs = msgs ∧
    (∀ m0, msgs.head? = some m0 → clearConv msgs = ([m0], clearedText)) := by
  refine ⟨rfl, ?_, rfl, ?_⟩
  · intro m0 m t h0 hcall
    have hcall2 : runLoop reg dec provider fuel
        (msgs ++ [⟨Role.user, "Patient: ".data ++ prompt⟩]) = some (m, t) := hcall
    obtain ⟨suf, hsuf⟩ := runLoop_extends reg dec provider fuel
      (msgs ++ [⟨Role.user, "Patient: ".data ++ prompt⟩]) m t hcall2
    subst hsuf
    cases msgs with
    | nil => simp at h0
    | cons mm rest =>
      simp only [List.head?_cons, Option.some.injEq] at h0
      simp [h0]
  · intro m0 h0
    cases msgs with
    | nil => simp at h0
    | cons mm rest =>
      simp only [List.head?_cons, Option.some.injEq] at h0
      simp [clearConv, h0]

theorem C8_system_head_witness :
    initMsgs "sp".data = [⟨Role.sys, "sp".data⟩] ∧
    (∀ m0 m t, (initMsgs "sp".data).head? = some m0 →
      callAgent emptyReg noJson (fun _ => Except.error ()) 1
        (initMsgs "sp".data) "hi".data = some (m, t) →
      m.head? = some m0) ∧
    getHistory (initMsgs "sp".data) = initMsgs "sp".data ∧
    (∀ m0, (initMsgs "sp".data).head? = some m0 →
      clearConv (initMsgs "sp".data) = ([m0], clearedText)) :=
  C8_system_head emptyReg noJson (fun _ => Except.error ()) 1
    (initMsgs "sp".data) "hi".data "sp".data

/-- whenever the parsed action misses the registry (absent, empty, or not
found under `strip().lower()`), `_tool_call` returns the not-found
Observation built from the raw parsed action. -/
theorem toolCall_notFound {J : Type} (reg : Registry J)
    (dec : List Char → Option J) (c : List Char)
    (hmiss : ∀ a, (parseActionString dec c).1 = some a → a.isEmpty = false →
      dictFind reg (lowerL (trimL a)) = none) :
    toolCall reg dec c = notFoundObs reg (parseActionString dec c).1 := by
  cases hpr : parseActionString dec c with
  | mk act inp =>
    simp only [toolCall, hpr]
    cases act with
    | none => rfl
    | some a =>
      cases hne : a.isEmpty with
      | true => simp [hne]
      | false =>
        have hfind := hmiss a (by rw [hpr]) hne
        simp [hne, hfind]

/-- C5.  For every completion whose parsed action names a registered tool
(non-empty name, found under `strip().lower()`), the dispatcher invokes
that tool's `run` on exactly the parsed argument; that argument is the
accumulated `Action Input:` text decoded as JSON when the decoder
succeeds, else the raw text; and when the accumulated text is empty (and
the decoder rejects the empty string, as `json.loads("")` does), the
argument is the raw empty string — not an error. -/
theorem C5_dispatch_known {J : Type} (reg : Registry J)
    (dec : List Char → Option J) (c a : List Char) (inp : ToolArg J)
    (t : HealthTool J)
    (hparse : parseActionString dec c = (some a, inp))
    (hne : a.isEmpty = false)
    (hfind : dictFind reg (lowerL (trimL a)) = some t) :
    toolCall reg dec c = runObs t inp ∧
    inp = jsonOrRaw dec (accumInput c) ∧
    (dec [] = none → accumInput c = [] → inp = ToolArg.raw []) := by
  have h2 : inp = jsonOrRaw dec (accumInput c) := by
    have hsnd : (parseActionString dec c).2 = jsonOrRaw dec (accumInput c) := rfl
    rw [hparse] at hsnd
    exact hsnd
  refine ⟨?_, h2, ?_⟩
  · simp only [toolCall, hparse, hne, Bool.false_eq_true, if_false, hfind]
  · intro hdec hacc
    rw [h2, hacc, jsonOrRaw, hdec]

/-- a concrete tool for the C5 witness. -/
def c5tool : HealthTool Unit :=
  ⟨"med_tool".data, "d".data, "a".data, fun _ => Except.ok "ok".data⟩

/-- registry holding only `c5tool`. -/
def c5reg : Registry Unit := formatTools [c5tool]

/-- sample completion naming `med_tool`. -/
def c5ex : List Char := "Thought: t\nAction: med_tool\nAction Input: dose".data

theorem C5_dispatch_known_witness :
    toolCall c5reg noJson c5ex = runObs c5tool (ToolArg.raw "dose".data) ∧
    ToolArg.raw "dose".data = jsonOrRaw noJson (accumInput c5ex) ∧
    (noJson [] = none → accumInput c5ex = [] →
      ToolArg.raw "dose".data = (ToolArg.raw [] : ToolArg Unit)) :=
  C5_dispatch_known c5reg noJson c5ex "med_tool".data
    (ToolArg.raw "dose".data) c5tool (by decide) (by decide) rfl

theorem pyStrListRepr_ne_nil (ks : List (List Char)) : pyStrListRepr ks ≠ [] := by
  simp [pyStrListRepr]

theorem containsSub_suffix (sep p : List Char) (hsep : sep ≠ []) :
    containsSub sep (p ++ sep) = true := by
  have h := containsSub_append_self sep p [] hsep
  simpa using h

/-- the not-found Observation literally contains the rendered list of the
currently registered tool names. -/
theorem notFoundObs_contains_keys {J : Type} (reg : Registry J)
    (act : Option (List Char)) :
    containsSub (pyStrListRepr (dictKeys reg)) (notFoundObs reg act) = true := by
  have h := containsSub_suffix (pyStrListRepr (dictKeys reg))
    ("Observation: Tool '".data ++
      (match act with | none => "None".data | some a => a) ++
      "' not found. Available tools: ".data)
    (pyStrListRepr_ne_nil (dictKeys reg))
  simpa [notFoundObs, List.append_assoc] using h

/-- C6.  For every completion that takes the tool-step branch but whose
parsed action misses the registry, the loop appends the assistant message
and a User-role Observation stating the tool was not found and containing
the rendered list of all registered tool names, and the turn continues
(the step does not end the turn; the loop proceeds with the extended
conversation). -/
theorem C6_unknown_tool {J : Type} (reg : Registry J)
    (dec : List Char → Option J) (msgs : List Msg) (c : List Char)
    (h1 : containsSub respMark c = false)
    (h2 : containsSub actMark c = true)
    (h3 : containsSub inMark c = true)
    (hmiss : ∀ a, (parseActionString dec c).1 = some a → a.isEmpty = false →
      dictFind reg (lowerL (trimL a)) = none) :
    stepCompletion reg dec msgs c =
      (msgs ++ [⟨Role.assistant, c⟩,
        ⟨Role.user, notFoundObs reg (parseActionString dec c).1⟩], none) ∧
    containsSub (pyStrListRepr (dictKeys reg))
      (notFoundObs reg (parseActionString dec c).1) = true ∧
    (∀ (provider : List Msg → Except Unit (List Char)) (fuel : Nat),
      provider msgs = Except.ok c →
      runLoop reg dec provider (fuel + 1) msgs =
        runLoop reg dec provider fuel (msgs ++ [⟨Role.assistant, c⟩,
          ⟨Role.user, notFoundObs reg (parseActionString dec c).1⟩])) := by
  have hstep : stepCompletion reg dec msgs c =
      (msgs ++ [⟨Role.assistant, c⟩,
        ⟨Role.user, notFoundObs reg (parseActionString dec c).1⟩], none) := by
    rw [stepCompletion_tool reg dec msgs c h1 h2 h3,
      toolCall_notFound reg dec c hmiss]
  refine ⟨hstep, notFoundObs_contains_keys reg _, ?_⟩
  intro provider fuel hprov
  exact runLoop_ok_cont reg dec provider fuel msgs _ c hprov hstep

/-- two concrete registered tools for the C6 witness. -/
def c6t1 : HealthTool Unit :=
  ⟨"medication_tool".data, "d1".data, "a1".data, fun _ => Except.ok []⟩

/-- second tool of the C6 witness registry. -/
def c6t2 : HealthTool Unit :=
  ⟨"symptom_tool".data, "d2".data, "a2".data, fun _ => Except.ok []⟩

/-- registry with the two tools. -/
def c6reg : Registry Unit := formatTools [c6t1, c6t2]

/-- a completion naming a tool that is not registered. -/
def c6ex : List Char := "Thought: t\nAction: unknown_tool\nAction Input: x".data

theorem C6_unknown_tool_witness :
    stepCompletion c6reg noJson [] c6ex =
      ([⟨Role.assistant, c6ex⟩,
        ⟨Role.user, notFoundObs c6reg (parseActionString noJson c6ex).1⟩],
        none) ∧
    containsSub (pyStrListRepr (dictKeys c6reg))
      (notFoundObs c6reg (parseActionString noJson c6ex).1) = true ∧
    (∀ (provider : List Msg → Except Unit (List Char)) (fuel : Nat),
      provider [] = Except.ok c6ex →
      runLoop c6reg noJson provider (fuel + 1) [] =
        runLoop c6reg noJson provider fuel ([⟨Role.assistant, c6ex⟩,
          ⟨Role.user, notFoundObs c6reg (parseActionString noJson c6ex).1⟩])) := by
  have h := C6_unknown_tool c6reg noJson [] c6ex (by decide) (by decide)
    (by decide)
    (fun a ha _ => by
      have h2 : (parseActionString noJson c6ex).1 = some ("unknown_tool".data) := by
        decide
      rw [h2] at ha
      have hxa : "unknown_tool".data = a := Option.some.inj ha
      rw [← hxa]
      rfl)
  simpa using h

/-- C10.  The registry keys are normalized (spaces replaced by
underscores) but the dispatch lookup only strips and lowercases the parsed
action name.  Hence any `Action:` name whose stripped, lowercased form
still contains a space — e.g. the spaced original of a registered tool —
misses every registry built from normalized tools and yields the
tool-not-found Observation instead of invoking the tool. -/
theorem C10_spaced_name_misses {J : Type} (raws : List (HealthTool J))
    (dec : List Char → Option J) (c a : List Char) (inp : ToolArg J)
    (hparse : parseActionString dec c = (some a, inp))
    (hsp : ' ' ∈ lowerL (trimL a)) :
    toolCall (formatTools (raws.map mkTool)) dec c =
      notFoundObs (formatTools (raws.map mkTool)) (some a) := by
  have hne : a.isEmpty = false := by
    cases a with
    | nil => exact absurd hsp (by decide)
    | cons x xs => rfl
  simp only [toolCall, hparse, hne, Bool.false_eq_true, if_false,
    dictFind_formatTools_space raws _ hsp]

/-- raw tool whose name contains a space, for the C10 witness. -/
def c10raw : HealthTool Unit :=
  ⟨"Medication Tool".data, "d".data, "a".data, fun _ => Except.ok []⟩

/-- completion using the spaced original name. -/
def c10ex : List Char := "Action: Medication Tool\nAction Input: x".data

theorem C10_spaced_name_misses_witness :
    toolCall (formatTools ([c10raw].map mkTool)) noJson c10ex =
      notFoundObs (formatTools ([c10raw].map mkTool))
        (some "Medication Tool".data) :=
  C10_spaced_name_misses [c10raw] noJson c10ex "Medication Tool".data
    (ToolArg.raw "x".data) (by decide) (by decide)

/-- C4 (amended).  `_format_tools` builds `dict(zip(names, tools))`: the
lookup result for any key is the LAST tool in the list with that
(normalized) name.  Registering a duplicate normalized name silently
overwrites the earlier tool; no error of any kind is reported — the
construction is a total function with no failure outcome. -/
theorem C4_duplicates_overwritten {J : Type} (ts : List (HealthTool J))
    (k : List Char) :
    dictFind (formatTools ts) k =
      ts.reverse.find? (fun t => decide (t.name = k)) :=
  dictFind_formatTools ts k

/-- first of two tools whose normalized names collide. -/
def c4t1 : HealthTool Unit :=
  ⟨"Dup Tool".data, "first".data, "a".data, fun _ => Except.ok []⟩

/-- second tool with the same normalized name. -/
def c4t2 : HealthTool Unit :=
  ⟨"DUP_TOOL".data, "second".data, "a".data, fun _ => Except.ok []⟩

/-- C4 counterexample: two tools normalize to the same name `dup_tool`,
yet registry construction succeeds, produces a single entry, and that
entry holds the SECOND tool — the duplicate is silently kept, no
`DuplicateToolNameError` (or any failure) is reported, contradicting the
claim. -/
theorem C4_counterexample :
    (mkTool c4t1).name = (mkTool c4t2).name ∧
    (formatTools [mkTool c4t1, mkTool c4t2]).length = 1 ∧
    (dictFind (formatTools [mkTool c4t1, mkTool c4t2]) "dup_tool".data).map
      (fun t => t.description) = some "second".data := by
  refine ⟨by decide, by decide, by decide⟩

theorem nl_not_mem_inMark : '\n' ∉ inMark := by decide

theorem nl_not_mem_actMark : '\n' ∉ actMark := by decide

theorem nl_not_mem_obsMark : '\n' ∉ obsMark := by decide

/-- C7 counterexample: the continuation line `  padded line` of an
`Action Input:` block is appended as `padded line` — `line.strip()`, not
verbatim — so the accumulated argument differs from the
whitespace-preserving text the claim requires. -/
theorem C7_counterexample :
    (scanLines (splitOnSub ['\n']
      "Action Input: start\n  padded line\nObservation: end".data)).segs =
      ["start".data, "padded line".data] ∧
    accumInput "Action Input: start\n  padded line\nObservation: end".data =
      "start\npadded line".data ∧
    accumInput "Action Input: start\n  padded line\nObservation: end".data ≠
      "start\n  padded line".data := by
  refine ⟨by decide, by decide, by decide⟩

/-- C7 (amended).  Between an `Action Input:` line and the next
`Observation:` line, every non-blank line is appended STRIPPED of leading
and trailing whitespace (`line.strip()`, not verbatim); blank lines are
dropped; the surviving segments are joined with single newlines; and
nothing after the `Observation:` line is accumulated. -/
theorem C7_amended_stripped_accumulation (h0 o : List Char)
    (ls more : List (List Char))
    (hh0 : '\n' ∉ h0) (hho : '\n' ∉ o)
    (hc0 : containsSub inMark h0 = false)
    (hls : ∀ l ∈ ls, PlainLine l ∧ '\n' ∉ l)
    (hmore : ∀ l ∈ more, PlainLine l ∧ '\n' ∉ l) :
    accumInput (joinNL ((inMark ++ h0) :: ls ++ (obsMark ++ o) :: more)) =
      joinNL ((if (trimL h0).isEmpty then [] else [trimL h0]) ++
        (ls.map trimL).filter (fun t => !t.isEmpty)) := by
  have hlines : splitOnSub ['\n']
      (joinNL ((inMark ++ h0) :: ls ++ (obsMark ++ o) :: more)) =
      (inMark ++ h0) :: ls ++ (obsMark ++ o) :: more := by
    apply splitOnSub_joinNL _ (by simp)
    intro l hl
    rcases List.mem_cons.mp hl with rfl | hl2
    · intro hmem
      rcases List.mem_append.mp hmem with hm | hm
      · exact nl_not_mem_inMark hm
      · exact hh0 hm
    · rcases List.mem_append.mp hl2 with hm | hm
      · exact (hls l hm).2
      · rcases List.mem_cons.mp hm with rfl | hm2
        · intro hmem
          rcases List.mem_append.mp hmem with hm3 | hm3
          · exact nl_not_mem_obsMark hm3
          · exact hho hm3
        · exact (hmore l hm2).2
  rw [accumInput, hlines]
  rw [scanLines, List.cons_append, List.foldl_cons,
    scanStep_in ⟨none, [], false⟩ h0 hc0]
  rw [List.foldl_append]
  rw [foldl_scanStep_cont ls none _ (fun l hl => (hls l hl).1)]
  rw [List.foldl_cons, scanStep_obs]
  rw [foldl_scanStep_off more none _ (fun l hl => (hmore l hl).1)]
  cases hemp : (trimL h0).isEmpty with
  | true => simp [hemp]
  | false => simp [hemp]

theorem C7_amended_stripped_accumulation_witness :
    accumInput (joinNL ((inMark ++ " start ".data) ::
      ["  padded line".data, "   ".data] ++
        (obsMark ++ " end".data) :: ["after".data])) =
      joinNL ((if (trimL " start ".data).isEmpty then []
        else [trimL " start ".data]) ++
        ((["  padded line".data, "   ".data].map trimL).filter
          (fun t => !t.isEmpty))) := by
  have h := C7_amended_stripped_accumulation
    " start ".data " end".data ["  padded line".data, "   ".data]
    ["after".data] (by decide) (by decide) (by decide)
    (by
      intro l hl
      rcases List.mem_cons.mp hl with rfl | hl2
      · exact ⟨⟨rfl, rfl, rfl⟩, by decide⟩
      · rcases List.mem_cons.mp hl2 with rfl | hl3
        · exact ⟨⟨rfl, rfl, rfl⟩, by decide⟩
        · cases hl3)
    (by
      intro l hl
      rcases List.mem_cons.mp hl with rfl | hl2
      · exact ⟨⟨rfl, rfl, rfl⟩, by decide⟩
      · cases hl2)
  exact h

/-- C9.  `Action:` lines overwrite each other (the last one wins), but
`Action Input:` lines accumulate: with two `Action:` lines and two
`Action Input:` lines, the parsed action is the stripped payload of the
SECOND `Action:` line, while the argument keeps BOTH `Action Input:`
payloads (stripped), joined by a newline, before the JSON-or-raw
decoding. -/
theorem C9_inputs_accumulate {J : Type} (dec : List Char → Option J)
    (x y a b : List Char)
    (hx : '\n' ∉ x) (hy : '\n' ∉ y) (ha : '\n' ∉ a) (hb : '\n' ∉ b)
    (hcx : containsSub actMark x = false)
    (hcy : containsSub actMark y = false)
    (hca : containsSub inMark a = false)
    (hcb : containsSub inMark b = false)
    (hta : (trimL a).isEmpty = false) (htb : (trimL b).isEmpty = false) :
    parseActionString dec
      (joinNL [actMark ++ x, actMark ++ y, inMark ++ a, inMark ++ b]) =
      (some (trimL y), jsonOrRaw dec (trimL a ++ '\n' :: trimL b)) := by
  have hlines : splitOnSub ['\n']
      (joinNL [actMark ++ x, actMark ++ y, inMark ++ a, inMark ++ b]) =
      [actMark ++ x, actMark ++ y, inMark ++ a, inMark ++ b] := by
    apply splitOnSub_joinNL _ (by simp)
    intro l hl
    have happ : ∀ (m r : List Char), '\n' ∉ m → '\n' ∉ r → '\n' ∉ m ++ r := by
      intro m r hm hr hmem
      rcases List.mem_append.mp hmem with hm2 | hm2
      · exact hm hm2
      · exact hr hm2
    rcases List.mem_cons.mp hl with rfl | hl
    · exact happ _ _ nl_not_mem_actMark hx
    rcases List.mem_cons.mp hl with rfl | hl
    · exact happ _ _ nl_not_mem_actMark hy
    rcases List.mem_cons.mp hl with rfl | hl
    · exact happ _ _ nl_not_mem_inMark ha
    rcases List.mem_cons.mp hl with rfl | hl
    · exact happ _ _ nl_not_mem_inMark hb
    cases hl
  have hscan : scanLines [actMark ++ x, actMark ++ y, inMark ++ a, inMark ++ b] =
      ⟨some (trimL y), [trimL a, trimL b], true⟩ := by
    rw [scanLines, List.foldl_cons, scanStep_act ⟨none, [], false⟩ x hcx,
      List.foldl_cons, scanStep_act _ y hcy,
      List.foldl_cons, scanStep_in _ a hca,
      List.foldl_cons, scanStep_in _ b hcb]
    simp [hta, htb]
  show ((scanLines (splitOnSub ['\n']
      (joinNL [actMark ++ x, actMark ++ y, inMark ++ a, inMark ++ b]))).action,
    jsonOrRaw dec (joinNL (scanLines (splitOnSub ['\n']
      (joinNL [actMark ++ x, actMark ++ y, inMark ++ a, inMark ++ b]))).segs)) = _
  rw [hlines, hscan]
  rfl

theorem C9_inputs_accumulate_witness :
    parseActionString noJson
      (joinNL [actMark ++ " first_tool".data, actMark ++ " second_tool".data,
        inMark ++ " alpha ".data, inMark ++ "beta".data]) =
      (some (trimL " second_tool".data),
        jsonOrRaw noJson (trimL " alpha ".data ++ '\n' :: trimL "beta".data)) :=
  C9_inputs_accumulate noJson " first_tool".data " second_tool".data
    " alpha ".data "beta".data (by decide) (by decide) (by decide) (by decide)
    (by decide) (by decide) (by decide) (by decide) (by decide) (by decide)

end HealthGuard
